import Mathlib

set_option linter.unusedVariables false
set_option maxRecDepth 4096

/-! Verification development for the state-composition layer of the vqcsim
quantum-circuit simulator (`src/cppsim/state.hpp`).  The header declares the
state classes (`QuantumStateBase`, `QuantumStateCpu`, the alias
`QuantumState = QuantumStateCpu`) and the five composition algorithms in
`namespace state`; the function bodies are not part of the sources, so every
operation below is modelled from the specification as a concrete executable
function over exact rational complex amplitudes. -/

/-- Exact complex numbers with rational components, modelling the C++
`CPPCTYPE = std::complex<double>` (floating-point rounding is out of scope for
the contract; arithmetic is modelled exactly). -/
structure Cpx where
  re : ℚ
  im : ℚ
  deriving DecidableEq, Repr

instance : Zero Cpx := ⟨⟨0, 0⟩⟩

instance : One Cpx := ⟨⟨1, 0⟩⟩

instance : Add Cpx := ⟨fun a b => ⟨a.re + b.re, a.im + b.im⟩⟩

instance : Mul Cpx := ⟨fun a b => ⟨a.re * b.re - a.im * b.im, a.re * b.im + a.im * b.re⟩⟩

/-- Complex conjugate. -/
def Cpx.conj (a : Cpx) : Cpx := ⟨a.re, -a.im⟩

theorem Cpx.ext2 {a b : Cpx} (h1 : a.re = b.re) (h2 : a.im = b.im) : a = b := by
  cases a; cases b; simp_all

@[simp] theorem Cpx.add_re (a b : Cpx) : (a + b).re = a.re + b.re := rfl

@[simp] theorem Cpx.add_im (a b : Cpx) : (a + b).im = a.im + b.im := rfl

@[simp] theorem Cpx.mul_re (a b : Cpx) : (a * b).re = a.re * b.re - a.im * b.im := rfl

@[simp] theorem Cpx.mul_im (a b : Cpx) : (a * b).im = a.re * b.im + a.im * b.re := rfl

@[simp] theorem Cpx.zero_re : (0 : Cpx).re = 0 := rfl

@[simp] theorem Cpx.zero_im : (0 : Cpx).im = 0 := rfl

@[simp] theorem Cpx.one_re : (1 : Cpx).re = 1 := rfl

@[simp] theorem Cpx.one_im : (1 : Cpx).im = 0 := rfl

@[simp] theorem Cpx.conj_re (a : Cpx) : a.conj.re = a.re := rfl

@[simp] theorem Cpx.conj_im (a : Cpx) : a.conj.im = -a.im := rfl

instance : AddCommMonoid Cpx where
  add_assoc a b c := by apply Cpx.ext2 <;> simp <;> ring
  zero_add a := by apply Cpx.ext2 <;> simp
  add_zero a := by apply Cpx.ext2 <;> simp
  add_comm a b := by apply Cpx.ext2 <;> simp <;> ring
  nsmul := nsmulRec

/-- The real part as an additive monoid homomorphism. -/
def Cpx.reHom : Cpx →+ ℚ where
  toFun := Cpx.re
  map_zero' := rfl
  map_add' a b := rfl

/-- The imaginary part as an additive monoid homomorphism. -/
def Cpx.imHom : Cpx →+ ℚ where
  toFun := Cpx.im
  map_zero' := rfl
  map_add' a b := rfl

@[simp] theorem Cpx.one_mul (a : Cpx) : (1 : Cpx) * a = a := by
  apply Cpx.ext2 <;> simp

@[simp] theorem Cpx.zero_mul (a : Cpx) : (0 : Cpx) * a = 0 := by
  apply Cpx.ext2 <;> simp

/-- Model of the concrete state class `QuantumStateCpu` (and of the data of
`QuantumStateBase`, src/cppsim/state.hpp lines 18-306 and 308-510): qubit
count, state-vector/density-matrix flag, the owned amplitude buffer
`_state_vector`, the classical register, and the per-instance pseudo-random
generator `random`.  Device/distribution data (`inner_qc`, `outer_qc`,
`device_number`, `_cuda_stream`) is not modelled: no claim depends on it. -/
structure QuantumState where
  qubit_count : Nat
  is_state_vector : Bool
  state_vector : List Cpx
  classical_register : List Nat
  rng : Nat
  deriving DecidableEq, Repr

/-- `dim = 2^qubit_count`, the logical number of basis amplitudes. -/
def QuantumState.dim (s : QuantumState) : Nat := 2 ^ s.qubit_count

/-- Amplitude of `s` at computational-basis index `i` (0 outside the buffer). -/
def amp (s : QuantumState) (i : Nat) : Cpx := s.state_vector.getD i 0

/-- The error conditions of the contract (spec §7): shape mismatch, range
error, and an order that is not a valid permutation. -/
inductive CompError where
  | shapeMismatch
  | rangeError
  | invalidOrder
  deriving DecidableEq, Repr

theorem getD_map_range (f : Nat → Cpx) {N i : Nat} (h : i < N) :
    (List.map f (List.range N)).getD i 0 = f i := by
  simp [List.getD_eq_getElem?_getD, List.getElem?_map, List.getElem?_range h]

theorem foldl_add_map_range {M : Type} [AddCommMonoid M] (f : Nat → M) (N : Nat) :
    ((List.range N).map f).foldl (· + ·) 0 = ∑ i ∈ Finset.range N, f i := by
  induction N with
  | zero => simp
  | succ n ih =>
      rw [List.range_succ, List.map_append, List.foldl_append, ih,
        Finset.sum_range_succ]
      simp

/-- Modelled from the spec: the body of `state::inner_product` (declared at
src/cppsim/state.hpp lines 522-523) is not part of the sources.  Per spec
§4.3 it requires equal `qubit_count`, returning the sum over all basis
indices of `conj(bra[i]) * ket[i]`, and fails with a shape-mismatch error
otherwise. -/
def state.inner_product (state_bra state_ket : QuantumState) : Except CompError Cpx :=
  if state_bra.qubit_count = state_ket.qubit_count then
    .ok (((List.range (2 ^ state_bra.qubit_count)).map
      (fun i => Cpx.conj (amp state_bra i) * amp state_ket i)).foldl (· + ·) 0)
  else .error CompError.shapeMismatch

/-- Modelled from the spec: the body of `state::tensor_product` (declared at
src/cppsim/state.hpp lines 524-525) is not part of the sources.  Per spec
§4.3 the result has `qubit_count = left.qubit_count + right.qubit_count` and
the amplitude at a combined index is the product of the two source amplitudes
at the two sub-indices.  The spec leaves the bit-order convention open; this
model fixes the low-order `left.qubit_count` bits of the combined index to
come from `left`. -/
def state.tensor_product (state_left state_right : QuantumState) : QuantumState :=
  { qubit_count := state_left.qubit_count + state_right.qubit_count
    is_state_vector := state_left.is_state_vector
    state_vector :=
      (List.range (2 ^ (state_left.qubit_count + state_right.qubit_count))).map
        (fun i => amp state_left (i % 2 ^ state_left.qubit_count) *
          amp state_right (i / 2 ^ state_left.qubit_count))
    classical_register := []
    rng := state_left.rng }

/-- The basis-index relabeling used by `permutate_qubit`: bit `k` of the
result index `j` is read from bit `qubit_order[k]` of the source index, so
the source index for target index `j` sets bit `qubit_order[k]` to bit `k`
of `j`. -/
def permSourceAux (j : Nat) : List Nat → Nat → Nat
  | [], _ => 0
  | t :: rest, k => (if Nat.testBit j k then 2 ^ t else 0) ||| permSourceAux j rest (k + 1)

/-- Source basis index read for target basis index `j` by `permutate_qubit`. -/
def permSource (qubit_order : List Nat) (j : Nat) : Nat := permSourceAux j qubit_order 0

/-- Check that `qubit_order` is a permutation of `0..n-1`: correct length and
every value `m < n` occurs. -/
def isPermutationList (qubit_order : List Nat) (n : Nat) : Bool :=
  qubit_order.length == n && (List.range n).all (fun m => qubit_order.contains m)

/-- Modelled from the spec: the body of `state::permutate_qubit` (declared at
src/cppsim/state.hpp lines 526-527) is not part of the sources.  Per spec
§4.3, `qubit_order` must be a permutation of `0..qubit_count-1`; the result
has the same qubit count, and the qubit originally at position
`qubit_order[k]` becomes qubit `k`, i.e. every basis index is relabeled by
the bit permutation.  Fails on an invalid order. -/
def state.permutate_qubit (s : QuantumState) (qubit_order : List Nat) :
    Except CompError QuantumState :=
  if isPermutationList qubit_order s.qubit_count then
    .ok { qubit_count := s.qubit_count
          is_state_vector := s.is_state_vector
          state_vector := (List.range (2 ^ s.qubit_count)).map
            (fun j => amp s (permSource qubit_order j))
          classical_register := []
          rng := s.rng }
  else .error CompError.invalidOrder

/-- Builds the source basis index read by `drop_qubit` for surviving index
`r`: walks the qubit positions `ps`; a position in `target` receives its
projection bit, any other position receives the next bit of `r` (the counter
`c` tracks how many non-target positions have been consumed). -/
def embedAux (target proj : List Nat) (r : Nat) : List Nat → Nat → Nat
  | [], _ => 0
  | p :: rest, c =>
    if p ∈ target then
      (if proj.getD (target.indexOf p) 0 == 1 then 2 ^ p else 0) |||
        embedAux target proj r rest c
    else
      (if Nat.testBit r c then 2 ^ p else 0) ||| embedAux target proj r rest (c + 1)

/-- Source basis index read by `drop_qubit` for surviving basis index `r`. -/
def embedIndex (target proj : List Nat) (n r : Nat) : Nat :=
  embedAux target proj r (List.range n) 0

/-- The qubit positions of an `n`-qubit state that survive `drop_qubit`, in
increasing order. -/
def nonTargets (target : List Nat) (n : Nat) : List Nat :=
  (List.range n).filter (fun p => decide (p ∉ target))

/-- Modelled from the spec: the body of `state::drop_qubit` (declared at
src/cppsim/state.hpp lines 528-529) is not part of the sources.  Per spec
§4.3 it projects the listed target qubits onto the given classical values and
removes them from the index space, producing a state over the remaining
`qubit_count - |target|` qubits, without renormalizing; it fails if the two
lists differ in length or reference an out-of-range qubit. -/
def state.drop_qubit (s : QuantumState) (target projection : List Nat) :
    Except CompError QuantumState :=
  if target.length ≠ projection.length then .error CompError.shapeMismatch
  else if target.any (fun t => s.qubit_count ≤ t) then .error CompError.rangeError
  else
    .ok { qubit_count := s.qubit_count - target.length
          is_state_vector := s.is_state_vector
          state_vector := (List.range (2 ^ (s.qubit_count - target.length))).map
            (fun r => amp s (embedIndex target projection s.qubit_count r))
          classical_register := []
          rng := s.rng }

/-- Modelled from the spec: the body of `state::make_superposition` (declared
at src/cppsim/state.hpp lines 531-532) is not part of the sources.  Per spec
§4.3 it requires equal `qubit_count` and returns a new state with amplitude
`coef1*state1[i] + coef2*state2[i]` at every basis index `i`; fails with a
shape mismatch otherwise. -/
def state.make_superposition (coef1 : Cpx) (state1 : QuantumState) (coef2 : Cpx)
    (state2 : QuantumState) : Except CompError QuantumState :=
  if state1.qubit_count = state2.qubit_count then
    .ok { qubit_count := state1.qubit_count
          is_state_vector := state1.is_state_vector
          state_vector := (List.range (2 ^ state1.qubit_count)).map
            (fun i => coef1 * amp state1 i + coef2 * amp state2 i)
          classical_register := []
          rng := state1.rng }
  else .error CompError.shapeMismatch

/-- The amplitude buffer of the computational basis state `b` over `n`
qubits: 1 at index `b`, 0 elsewhere. -/
def basisVector (n b : Nat) : List Cpx :=
  (List.range (2 ^ n)).map (fun i => if i = b then 1 else 0)

/-- Modelled from the spec: the advance function of the per-instance
pseudo-random generator (`Random random`, src/cppsim/state.hpp line 311).
The generator's internal algorithm is out of scope (spec §1); it is modelled
as a linear congruential generator modulo 18446744073709551616 = 2^64,
returning the current state as its output. -/
def rngNext (g : Nat) : Nat × Nat :=
  (g % 18446744073709551616, (1442695040888963407 + 6364136223846793005 * g) % 18446744073709551616)

/-- Modelled from the spec: the Haar-random amplitude kernel invoked by
`set_Haar_random_state` (src/cppsim/state.hpp lines 354-359; kernel bodies
are external collaborators, spec §1).  Only the properties the contract pins
down are modelled: the buffer is a deterministic function of the seed and the
qubit count alone, and distinct seeds give distinct buffers. -/
def haarVec (seed n : Nat) : List Cpx :=
  (List.range (2 ^ n)).map (fun i => ⟨((seed + i : Nat) : ℚ), 0⟩)

/-- Modelled from the spec (§4.1): `set_zero_state` deterministically
initializes to `|0...0⟩`. -/
def QuantumState.set_zero_state (s : QuantumState) : QuantumState :=
  { s with state_vector := basisVector s.qubit_count 0 }

/-- Modelled from the spec (§4.1): `set_zero_norm_state` zeroes the buffer. -/
def QuantumState.set_zero_norm_state (s : QuantumState) : QuantumState :=
  { s with state_vector := List.replicate (2 ^ s.qubit_count) 0 }

/-- Modelled from the spec (§4.1, §7): `set_computational_basis(b)` fails
with a range error if `b ≥ dim`, else initializes to basis state `b`. -/
def QuantumState.set_computational_basis (s : QuantumState) (b : Nat) :
    QuantumState × Option CompError :=
  if b < 2 ^ s.qubit_count then
    ({ s with state_vector := basisVector s.qubit_count b }, none)
  else (s, some CompError.rangeError)

/-- Modelled from the spec (§4.1): the seeded `set_Haar_random_state(seed)`;
byte-for-byte reproducible for fixed seed and qubit count. -/
def QuantumState.set_Haar_random_state_seeded (s : QuantumState) (seed : Nat) :
    QuantumState :=
  { s with state_vector := haarVec seed s.qubit_count }

/-- Modelled from the spec (§4.1, §9): the unseeded `set_Haar_random_state()`
draws a fresh seed from the per-instance generator and advances it. -/
def QuantumState.set_Haar_random_state (s : QuantumState) : QuantumState :=
  { s with state_vector := haarVec (rngNext s.rng).1 s.qubit_count
           rng := (rngNext s.rng).2 }

/-- Modelled from the spec (§4.1): `normalize(squared_norm)` divides every
amplitude by the square root of the supplied value (the double-precision
square root is modelled by the rational approximation `Rat.sqrt`). -/
def QuantumState.normalize (s : QuantumState) (squared_norm : ℚ) : QuantumState :=
  { s with
    state_vector :=
      s.state_vector.map
        (fun a => ⟨a.re / Rat.sqrt squared_norm, a.im / Rat.sqrt squared_norm⟩) }

/-- Modelled from the spec (§4.1, §8): `load(state)` overwrites amplitudes
(and the classical register) from another state; fails if shapes are
incompatible. -/
def QuantumState.load (s other : QuantumState) : QuantumState × Option CompError :=
  if s.qubit_count = other.qubit_count then
    ({ s with state_vector := other.state_vector
              classical_register := other.classical_register }, none)
  else (s, some CompError.shapeMismatch)

/-- Modelled from the spec (§4.1): `load(vector)` overwrites amplitudes from
a raw complex sequence; fails if the length is incompatible. -/
def QuantumState.load_vector (s : QuantumState) (v : List Cpx) :
    QuantumState × Option CompError :=
  if v.length = 2 ^ s.qubit_count then ({ s with state_vector := v }, none)
  else (s, some CompError.shapeMismatch)

/-- Modelled from the spec (§4.1): `add_state(other)` requires equal
`qubit_count` and adds amplitudes elementwise. -/
def QuantumState.add_state (s other : QuantumState) : QuantumState × Option CompError :=
  if s.qubit_count = other.qubit_count then
    ({ s with state_vector :=
        (List.range (2 ^ s.qubit_count)).map (fun i => amp s i + amp other i) }, none)
  else (s, some CompError.shapeMismatch)

/-- Modelled from the spec (§4.1): `add_state_with_coef(coef, other)` adds
`coef * other` elementwise; requires equal `qubit_count`. -/
def QuantumState.add_state_with_coef (s : QuantumState) (coef : Cpx)
    (other : QuantumState) : QuantumState × Option CompError :=
  if s.qubit_count = other.qubit_count then
    ({ s with
      state_vector :=
        (List.range (2 ^ s.qubit_count)).map
          (fun i => amp s i + coef * amp other i) }, none)
  else (s, some CompError.shapeMismatch)

/-- Modelled from the spec (§4.1): `multiply_coef(coef)` scales every
amplitude. -/
def QuantumState.multiply_coef (s : QuantumState) (coef : Cpx) : QuantumState :=
  { s with state_vector := s.state_vector.map (fun a => coef * a) }

/-- Modelled from the spec (§4.1): `multiply_elementwise_function(func)`
multiplies the amplitude at index `i` by `func i`. -/
def QuantumState.multiply_elementwise_function (s : QuantumState)
    (func : Nat → Cpx) : QuantumState :=
  { s with state_vector :=
      (List.range (2 ^ s.qubit_count)).map (fun i => func i * amp s i) }

/-- Modelled from the spec (§4.1): `set_classical_value(index, val)`; the
register grows as needed (growth policy is an open question in the spec). -/
def QuantumState.set_classical_value (s : QuantumState) (index val : Nat) :
    QuantumState :=
  { s with classical_register :=
      (s.classical_register ++
        List.replicate (index + 1 - s.classical_register.length) 0).set index val }

/-- Modelled from the spec (§4.1, §4.2): `sampling(count)` draws from the
per-instance generator, advancing it; the sampled values themselves are not
modelled (the sampling kernel is an external collaborator). -/
def QuantumState.sampling_advance (s : QuantumState) : QuantumState :=
  { s with rng := (rngNext s.rng).2 }

/-- Modelled from the spec (§4.1): `get_classical_value(index)`. -/
def QuantumState.get_classical_value (s : QuantumState) (index : Nat) : Nat :=
  s.classical_register.getD index 0

/-- Modelled from the spec (§4.1): `get_squared_norm` sums the squared
magnitudes over the entire logical buffer. -/
def QuantumState.get_squared_norm (s : QuantumState) : ℚ :=
  ((List.range (2 ^ s.qubit_count)).map
    (fun i => (amp s i).re * (amp s i).re + (amp s i).im * (amp s i).im)).foldl (· + ·) 0

/-- Modelled from the spec (§4.1, §7): `get_zero_probability(q)` fails if
`q ≥ qubit_count`; returns the probability mass over basis states whose bit
`q` is 0. -/
def QuantumState.get_zero_probability (s : QuantumState) (target_qubit_index : Nat) :
    Except CompError ℚ :=
  if target_qubit_index < s.qubit_count then
    .ok (((List.range (2 ^ s.qubit_count)).filter
        (fun i => !(Nat.testBit i target_qubit_index))).foldl
      (fun acc i => acc + ((amp s i).re * (amp s i).re + (amp s i).im * (amp s i).im)) 0)
  else .error CompError.rangeError

/-- Modelled from the spec (§4.1, §7): `get_marginal_probability(pattern)`
takes a sequence of length `qubit_count` over {0,1,2} (2 = don't care) and
fails if the length mismatches; returns the mass over consistent basis
states. -/
def QuantumState.get_marginal_probability (s : QuantumState)
    (measured_values : List Nat) : Except CompError ℚ :=
  if measured_values.length = s.qubit_count then
    .ok (((List.range (2 ^ s.qubit_count)).filter
        (fun i => (List.range s.qubit_count).all
          (fun q => measured_values.getD q 2 == 2 ||
            ((measured_values.getD q 2 == 1) == Nat.testBit i q)))).foldl
      (fun acc i => acc + ((amp s i).re * (amp s i).re + (amp s i).im * (amp s i).im)) 0)
  else .error CompError.shapeMismatch

/-- Modelled from the spec (§3, lifecycle): construction with
`(qubit_count, is_state_vector)`, allocating the buffer and initializing to
the zero state; `rng0` models the entropy seeding the per-instance
generator. -/
def QuantumState.construct (n : Nat) (isv : Bool) (rng0 : Nat) : QuantumState :=
  { qubit_count := n
    is_state_vector := isv
    state_vector := basisVector n 0
    classical_register := []
    rng := rng0 }

/-- Modelled from the spec (§4.1): `copy` returns a deep, content-preserving
copy. -/
def QuantumState.copy (s : QuantumState) : QuantumState := s

/-- Modelled from the spec (§4.1): `allocate_buffer` returns a new state of
identical shape/device with unspecified content (modelled as zeroed). -/
def QuantumState.allocate_buffer (s : QuantumState) : QuantumState :=
  { qubit_count := s.qubit_count
    is_state_vector := s.is_state_vector
    state_vector := List.replicate (2 ^ s.qubit_count) 0
    classical_register := []
    rng := s.rng }

/-- The mutating/querying operation surface of the state contract
(`QuantumStateBase`, src/cppsim/state.hpp lines 18-306), as explicit syntax
so that per-operation contracts can be quantified over all operations. -/
inductive Op where
  | set_zero_state : Op
  | set_zero_norm_state : Op
  | set_computational_basis : Nat → Op
  | set_Haar_random_state : Op
  | set_Haar_random_state_seeded : Nat → Op
  | normalize : ℚ → Op
  | normalize_single_thread : ℚ → Op
  | load : QuantumState → Op
  | load_vector : List Cpx → Op
  | add_state : QuantumState → Op
  | add_state_with_coef : Cpx → QuantumState → Op
  | add_state_with_coef_single_thread : Cpx → QuantumState → Op
  | multiply_coef : Cpx → Op
  | multiply_elementwise_function : (Nat → Cpx) → Op
  | set_classical_value : Nat → Nat → Op
  | get_classical_value : Nat → Op
  | get_zero_probability : Nat → Op
  | get_marginal_probability : List Nat → Op
  | get_entropy : Op
  | get_squared_norm : Op
  | get_squared_norm_single_thread : Op
  | sampling : Nat → Op
  | sampling_seeded : Nat → Nat → Op

/-- One synchronous call of a contract operation on the receiving state:
returns the state after the call together with the signalled error, if any.
Queries leave the state unchanged (except `sampling`, which advances the
per-instance generator); `_single_thread` variants are functionally identical
to their parallel forms (spec §4.1). -/
def stepOp (op : Op) (s : QuantumState) : QuantumState × Option CompError :=
  match op with
  | .set_zero_state => (s.set_zero_state, none)
  | .set_zero_norm_state => (s.set_zero_norm_state, none)
  | .set_computational_basis b => s.set_computational_basis b
  | .set_Haar_random_state => (s.set_Haar_random_state, none)
  | .set_Haar_random_state_seeded seed => (s.set_Haar_random_state_seeded seed, none)
  | .normalize sq => (s.normalize sq, none)
  | .normalize_single_thread sq => (s.normalize sq, none)
  | .load other => s.load other
  | .load_vector v => s.load_vector v
  | .add_state other => s.add_state other
  | .add_state_with_coef c other => s.add_state_with_coef c other
  | .add_state_with_coef_single_thread c other => s.add_state_with_coef c other
  | .multiply_coef c => (s.multiply_coef c, none)
  | .multiply_elementwise_function f => (s.multiply_elementwise_function f, none)
  | .set_classical_value i v => (s.set_classical_value i v, none)
  | .get_classical_value _ => (s, none)
  | .get_zero_probability q =>
      match s.get_zero_probability q with
      | .ok _ => (s, none)
      | .error e => (s, some e)
  | .get_marginal_probability mv =>
      match s.get_marginal_probability mv with
      | .ok _ => (s, none)
      | .error e => (s, some e)
  | .get_entropy => (s, none)
  | .get_squared_norm => (s, none)
  | .get_squared_norm_single_thread => (s, none)
  | .sampling _ => (s.sampling_advance, none)
  | .sampling_seeded _ _ => (s, none)

/-- The C++ class types a composition-function parameter can name in
src/cppsim/state.hpp. -/
inductive CppStateType where
  | quantumStateBase
  | quantumStateCpu
  deriving DecidableEq, Repr

/-- `using QuantumState = QuantumStateCpu;` — src/cppsim/state.hpp line 512. -/
def QuantumStateAlias : CppStateType := CppStateType.quantumStateCpu

/-- Parameter type of `state::inner_product` (`const QuantumState*`,
src/cppsim/state.hpp lines 522-523). -/
def inner_product_param : CppStateType := QuantumStateAlias

/-- Parameter type of `state::tensor_product` (src/cppsim/state.hpp lines
524-525). -/
def tensor_product_param : CppStateType := QuantumStateAlias

/-- Parameter type of `state::permutate_qubit` (src/cppsim/state.hpp lines
526-527). -/
def permutate_qubit_param : CppStateType := QuantumStateAlias

/-- Parameter type of `state::drop_qubit` (src/cppsim/state.hpp lines
528-529). -/
def drop_qubit_param : CppStateType := QuantumStateAlias

/-- Parameter type of `state::make_superposition` (src/cppsim/state.hpp
lines 531-532). -/
def make_superposition_param : CppStateType := QuantumStateAlias

/-- The state-parameter types of the five composition algorithms, as
declared in the header. -/
def composition_param_types : List CppStateType :=
  [inner_product_param, tensor_product_param, permutate_qubit_param,
    drop_qubit_param, make_superposition_param]

/-- A concrete 1-qubit state fixed at basis 0. -/
def sBasis0 : QuantumState :=
  { qubit_count := 1, is_state_vector := true, state_vector := [1, 0]
    classical_register := [], rng := 7 }

/-- A concrete 1-qubit state fixed at basis 1. -/
def sBasis1 : QuantumState :=
  { qubit_count := 1, is_state_vector := true, state_vector := [0, 1]
    classical_register := [], rng := 3 }

/-- A concrete 2-qubit state with four distinct amplitudes. -/
def sTwo : QuantumState :=
  { qubit_count := 2, is_state_vector := true
    state_vector := [⟨1, 0⟩, ⟨2, 0⟩, ⟨3, 0⟩, ⟨4, 0⟩]
    classical_register := [], rng := 0 }

/-- C1: for every pair of states with equal `qubit_count`, `inner_product`
returns the sum over all basis indices `i` of `conj(bra[i]) * ket[i]`; for
unequal `qubit_count` it fails with a shape-mismatch error. -/
theorem claim_C1 (bra ket : QuantumState) :
    (bra.qubit_count = ket.qubit_count →
      state.inner_product bra ket =
        Except.ok (∑ i ∈ Finset.range (2 ^ bra.qubit_count),
          Cpx.conj (amp bra i) * amp ket i)) ∧
    (bra.qubit_count ≠ ket.qubit_count →
      state.inner_product bra ket = Except.error CompError.shapeMismatch) := by
  constructor
  · intro h
    rw [state.inner_product, if_pos h, foldl_add_map_range]
  · intro h
    rw [state.inner_product, if_neg h]

/-- Witness for C1: the inner product of the two orthogonal 1-qubit basis
states evaluates, via `claim_C1`, to 0. -/
theorem claim_C1_witness :
    state.inner_product sBasis0 sBasis1 = Except.ok 0 := by
  have h := (claim_C1 sBasis0 sBasis1).1 rfl
  rw [h]
  congr 1
  rw [show (2 : ℕ) ^ sBasis0.qubit_count = 2 from rfl, Finset.sum_range_succ,
    Finset.sum_range_one]
  apply Cpx.ext2 <;>
    norm_num [amp, sBasis0, sBasis1, Cpx.conj, List.getD]

/-- C2: `tensor_product` yields a state with the sum of the qubit counts
whose amplitude at the combined index (left sub-index in the low-order bits)
is the product of the two source amplitudes. -/
theorem claim_C2 (state_left state_right : QuantumState) :
    (state.tensor_product state_left state_right).qubit_count =
        state_left.qubit_count + state_right.qubit_count ∧
    (∀ il ir, il < 2 ^ state_left.qubit_count → ir < 2 ^ state_right.qubit_count →
      amp (state.tensor_product state_left state_right)
          (il + 2 ^ state_left.qubit_count * ir) =
        amp state_left il * amp state_right ir) := by
  refine ⟨rfl, fun il ir hil hir => ?_⟩
  have hlt : il + 2 ^ state_left.qubit_count * ir <
      2 ^ (state_left.qubit_count + state_right.qubit_count) := by
    calc il + 2 ^ state_left.qubit_count * ir
        < 2 ^ state_left.qubit_count + 2 ^ state_left.qubit_count * ir := by omega
      _ = 2 ^ state_left.qubit_count * (ir + 1) := by ring
      _ ≤ 2 ^ state_left.qubit_count * 2 ^ state_right.qubit_count :=
          Nat.mul_le_mul_left _ hir
      _ = 2 ^ (state_left.qubit_count + state_right.qubit_count) := (pow_add 2 _ _).symm
  show (state.tensor_product state_left state_right).state_vector.getD _ 0 = _
  rw [state.tensor_product]
  rw [getD_map_range _ hlt]
  rw [Nat.add_mul_mod_self_left, Nat.mod_eq_of_lt hil,
    Nat.add_mul_div_left _ _ (Nat.two_pow_pos _), Nat.div_eq_of_lt hil, Nat.zero_add]

/-- Witness for C2: tensor-producting the 1-qubit basis-0 state with the
1-qubit basis-1 state puts amplitude `1*1` at combined index 2. -/
theorem claim_C2_witness :
    amp (state.tensor_product sBasis0 sBasis1) (0 + 2 ^ sBasis0.qubit_count * 1) =
      amp sBasis0 0 * amp sBasis1 1 :=
  (claim_C2 sBasis0 sBasis1).2 0 1 (by decide) (by decide)

/-- C5: `make_superposition(c1, s1, c2, s2)` requires equal qubit counts and
yields amplitude `c1*s1[i] + c2*s2[i]` at every index; with coefficients 1
and 0 it reproduces `s1`'s amplitudes exactly; on unequal qubit counts it
fails with a shape mismatch. -/
theorem claim_C5 (coef1 coef2 : Cpx) (state1 state2 : QuantumState) :
    (state1.qubit_count = state2.qubit_count →
      ∃ t, state.make_superposition coef1 state1 coef2 state2 = Except.ok t ∧
        t.qubit_count = state1.qubit_count ∧
        (∀ i, i < 2 ^ state1.qubit_count →
          amp t i = coef1 * amp state1 i + coef2 * amp state2 i) ∧
        (coef1 = 1 → coef2 = 0 → ∀ i, i < 2 ^ state1.qubit_count →
          amp t i = amp state1 i)) ∧
    (state1.qubit_count ≠ state2.qubit_count →
      state.make_superposition coef1 state1 coef2 state2 =
        Except.error CompError.shapeMismatch) := by
  constructor
  · intro h
    simp only [state.make_superposition, if_pos h]
    refine ⟨_, rfl, rfl, fun i hi => getD_map_range _ hi, ?_⟩
    rintro rfl rfl i hi
    show (List.map _ _).getD i 0 = _
    rw [getD_map_range _ hi, Cpx.one_mul, Cpx.zero_mul, add_zero]
  · intro h
    rw [state.make_superposition, if_neg h]

/-- Witness for C5: a coefficient-(1,0) superposition of the two concrete
1-qubit basis states reproduces the first one's amplitude at index 1. -/
theorem claim_C5_witness :
    ∃ t, state.make_superposition 1 sBasis0 0 sBasis1 = Except.ok t ∧
      t.qubit_count = sBasis0.qubit_count ∧
      (∀ i, i < 2 ^ sBasis0.qubit_count →
        amp t i = 1 * amp sBasis0 i + 0 * amp sBasis1 i) ∧
      ((1 : Cpx) = 1 → (0 : Cpx) = 0 → ∀ i, i < 2 ^ sBasis0.qubit_count →
        amp t i = amp sBasis0 i) :=
  (claim_C5 1 0 sBasis0 sBasis1).1 rfl

/-- C9: for every state `s`, `inner_product(s, s)` equals
`get_squared_norm(s)` in its real part and 0 in its imaginary part (the model
computes exactly, so the floating-point tolerance is 0). -/
theorem claim_C9 (s : QuantumState) :
    state.inner_product s s = Except.ok ⟨s.get_squared_norm, 0⟩ := by
  rw [state.inner_product, if_pos rfl, foldl_add_map_range]
  congr 1
  apply Cpx.ext2
  · show Cpx.reHom _ = _
    rw [map_sum, QuantumState.get_squared_norm, foldl_add_map_range]
    exact Finset.sum_congr rfl (fun i _ => by
      show (Cpx.conj (amp s i) * amp s i).re = _
      simp
      try ring)
  · show Cpx.imHom _ = _
    rw [map_sum]
    exact Finset.sum_eq_zero (fun i _ => by
      show (Cpx.conj (amp s i) * amp s i).im = 0
      simp
      try ring)

/-- C6 counterexample: the composition algorithms are not declared over the
abstract contract type `QuantumStateBase` — already `inner_product`'s state
parameter is the alias `QuantumState`, which the header binds to the concrete
CPU backend `QuantumStateCpu` (src/cppsim/state.hpp line 512). -/
theorem claim_C6_counterexample :
    inner_product_param ≠ CppStateType.quantumStateBase := by decide

/-- C6 (amended): all five composition algorithms are declared over the
concrete CPU backend type — each state parameter is
`const QuantumState* = const QuantumStateCpu*` — so by signature they apply
to the CPU backend only, not to every conforming backend. -/
theorem claim_C6 :
    composition_param_types =
      List.replicate 5 CppStateType.quantumStateCpu := by decide

theorem haarVec_inj {s1 s2 n : Nat} (h : haarVec s1 n = haarVec s2 n) : s1 = s2 := by
  have h0 := congrArg (fun l => l.getD 0 0) h
  simp only [haarVec] at h0
  rw [getD_map_range _ (Nat.two_pow_pos n), getD_map_range _ (Nat.two_pow_pos n)] at h0
  simp only [Cpx.mk.injEq] at h0
  have := h0.1
  exact_mod_cast this

theorem rng_step_changes_seed (g : Nat) :
    (1442695040888963407 + 6364136223846793005 * g) % 18446744073709551616 ≠
      g % 18446744073709551616 := by
  intro h
  have h2 : ((1442695040888963407 + 6364136223846793005 * g) % 18446744073709551616) % 2 =
      (g % 18446744073709551616) % 2 := by rw [h]
  rw [Nat.mod_mod_of_dvd _ (by norm_num), Nat.mod_mod_of_dvd _ (by norm_num)] at h2
  rw [Nat.add_mod, Nat.mul_mod] at h2
  norm_num at h2
  omega

/-- C8: the seeded `set_Haar_random_state(seed)` writes a buffer that depends
only on the seed and the qubit count — any two calls with the same seed on
states of the same qubit count produce identical buffers — while an unseeded
call is never reproduced by the immediately following unseeded call on the
same instance. -/
theorem claim_C8 :
    (∀ (s t : QuantumState) (seed : Nat), s.qubit_count = t.qubit_count →
      (s.set_Haar_random_state_seeded seed).state_vector =
        (t.set_Haar_random_state_seeded seed).state_vector) ∧
    (∀ s : QuantumState,
      s.set_Haar_random_state.set_Haar_random_state.state_vector ≠
        s.set_Haar_random_state.state_vector) := by
  constructor
  · intro s t seed h
    simp [QuantumState.set_Haar_random_state_seeded, h]
  · intro s hEq
    simp only [QuantumState.set_Haar_random_state, rngNext] at hEq
    exact rng_step_changes_seed s.rng
      (by
        have := haarVec_inj hEq
        rwa [Nat.mod_mod_of_dvd _ dvd_rfl] at this)

/-- Witness for C8: two distinct 1-qubit instances seeded with 42 receive
identical amplitude buffers. -/
theorem claim_C8_witness :
    (sBasis0.set_Haar_random_state_seeded 42).state_vector =
      (sBasis1.set_Haar_random_state_seeded 42).state_vector :=
  claim_C8.1 sBasis0 sBasis1 42 rfl

/-- C7: for every contract operation and every state, a failing call signals
the error synchronously and leaves the receiving state completely unchanged
(amplitude buffer, classical register and qubit count included). -/
theorem claim_C7 (op : Op) (s : QuantumState) (e : CompError)
    (h : (stepOp op s).2 = some e) : (stepOp op s).1 = s := by
  cases op <;> simp only [stepOp] at h ⊢ <;>
    first
      | exact absurd h (by simp)
      | (simp only [QuantumState.set_computational_basis] at h ⊢
         split at h <;> first | rfl | (rw [if_neg ‹_›]) | simp at h)
      | (simp only [QuantumState.load] at h ⊢
         split at h <;> first | rfl | (rw [if_neg ‹_›]) | simp at h)
      | (simp only [QuantumState.load_vector] at h ⊢
         split at h <;> first | rfl | (rw [if_neg ‹_›]) | simp at h)
      | (simp only [QuantumState.add_state] at h ⊢
         split at h <;> first | rfl | (rw [if_neg ‹_›]) | simp at h)
      | (simp only [QuantumState.add_state_with_coef] at h ⊢
         split at h <;> first | rfl | (rw [if_neg ‹_›]) | simp at h)
      | (split at h <;> rfl)

/-- Witness for C7: `set_computational_basis(5)` on a 1-qubit state is out of
range; the state is unchanged. -/
theorem claim_C7_witness :
    (stepOp (Op.set_computational_basis 5) sBasis0).1 = sBasis0 :=
  claim_C7 (Op.set_computational_basis 5) sBasis0 CompError.rangeError rfl

/-- C10: the `is_state_vector` flag is fixed at construction and preserved by
every contract operation, and `copy` and `allocate_buffer` produce states
carrying the same flag value. -/
theorem claim_C10 :
    (∀ (n : Nat) (isv : Bool) (rng0 : Nat),
      (QuantumState.construct n isv rng0).is_state_vector = isv) ∧
    (∀ (op : Op) (s : QuantumState),
      ((stepOp op s).1).is_state_vector = s.is_state_vector) ∧
    (∀ s : QuantumState, s.copy.is_state_vector = s.is_state_vector) ∧
    (∀ s : QuantumState, s.allocate_buffer.is_state_vector = s.is_state_vector) := by
  refine ⟨fun n isv rng0 => rfl, fun op s => ?_, fun s => rfl, fun s => rfl⟩
  cases op
  case set_computational_basis b =>
    simp only [stepOp, QuantumState.set_computational_basis]
    split <;> rfl
  case load other =>
    simp only [stepOp, QuantumState.load]
    split <;> rfl
  case load_vector v =>
    simp only [stepOp, QuantumState.load_vector]
    split <;> rfl
  case add_state other =>
    simp only [stepOp, QuantumState.add_state]
    split <;> rfl
  case add_state_with_coef c other =>
    simp only [stepOp, QuantumState.add_state_with_coef]
    split <;> rfl
  case add_state_with_coef_single_thread c other =>
    simp only [stepOp, QuantumState.add_state_with_coef]
    split <;> rfl
  case get_zero_probability q =>
    simp only [stepOp]
    split <;> rfl
  case get_marginal_probability mv =>
    simp only [stepOp]
    split <;> rfl
  case set_zero_state => rfl
  case set_zero_norm_state => rfl
  case set_Haar_random_state => rfl
  case set_Haar_random_state_seeded seed => rfl
  case normalize sq => rfl
  case normalize_single_thread sq => rfl
  case multiply_coef c => rfl
  case multiply_elementwise_function f => rfl
  case set_classical_value i v => rfl
  case get_classical_value i => rfl
  case get_entropy => rfl
  case get_squared_norm => rfl
  case get_squared_norm_single_thread => rfl
  case sampling cnt => rfl
  case sampling_seeded cnt seed => rfl

theorem permSourceAux_testBit_notMem (j : Nat) (ord : List Nat) (k m : Nat)
    (hm : m ∉ ord) : Nat.testBit (permSourceAux j ord k) m = false := by
  induction ord generalizing k with
  | nil => simp [permSourceAux]
  | cons t rest ih =>
      have hmt : m ≠ t := fun h => hm (h ▸ List.mem_cons_self t rest)
      have hmrest : m ∉ rest := fun h => hm (List.mem_cons_of_mem _ h)
      rw [permSourceAux, Nat.testBit_lor, ih _ hmrest, Bool.or_false]
      split
      · exact Nat.testBit_two_pow_of_ne (Ne.symm hmt)
      · exact Nat.zero_testBit m

theorem permSourceAux_testBit_getD (j : Nat) (ord : List Nat) (k q : Nat)
    (hnd : ord.Nodup) (hq : q < ord.length) :
    Nat.testBit (permSourceAux j ord k) (ord.getD q 0) = Nat.testBit j (k + q) := by
  induction ord generalizing k q with
  | nil => simp at hq
  | cons t rest ih =>
      rw [permSourceAux, Nat.testBit_lor]
      cases q with
      | zero =>
          have hrest : t ∉ rest := (List.nodup_cons.mp hnd).1
          rw [show (t :: rest).getD 0 0 = t from rfl,
            permSourceAux_testBit_notMem j rest (k + 1) t hrest, Bool.or_false,
            Nat.add_zero]
          cases hb : Nat.testBit j k
          · simp
          · simp [Nat.testBit_two_pow_self]
      | succ q' =>
          have hq' : q' < rest.length := by simpa using hq
          have hm : rest.getD q' 0 ∈ rest := by
            rw [List.getD_eq_getElem _ _ hq']
            exact List.getElem_mem _
          have ht : t ≠ rest.getD q' 0 :=
            fun h => (List.nodup_cons.mp hnd).1 (h ▸ hm)
          rw [show (t :: rest).getD (q' + 1) 0 = rest.getD q' 0 from rfl,
            ih (k + 1) q' (List.nodup_cons.mp hnd).2 hq']
          have hhead : Nat.testBit (if Nat.testBit j k then 2 ^ t else 0)
              (rest.getD q' 0) = false := by
            split
            · exact Nat.testBit_two_pow_of_ne ht
            · exact Nat.zero_testBit _
          rw [hhead, Bool.false_or]
          congr 1
          omega

theorem permSourceAux_lt (j : Nat) (ord : List Nat) (k n : Nat)
    (h : ∀ t ∈ ord, t < n) : permSourceAux j ord k < 2 ^ n := by
  induction ord generalizing k with
  | nil => simp [permSourceAux, Nat.two_pow_pos n]
  | cons t rest ih =>
      rw [permSourceAux]
      apply Nat.or_lt_two_pow
      · split
        · exact Nat.pow_lt_pow_right (by norm_num) (h t (List.mem_cons_self t rest))
        · exact Nat.two_pow_pos n
      · exact ih (k + 1) (fun x hx => h x (List.mem_cons_of_mem _ hx))

theorem perm_range_of_isPermutationList {qubit_order : List Nat} {n : Nat}
    (h : isPermutationList qubit_order n = true) :
    qubit_order.Perm (List.range n) := by
  rw [isPermutationList, Bool.and_eq_true, beq_iff_eq, List.all_eq_true] at h
  obtain ⟨hlen, hmem⟩ := h
  have hsub : List.range n ⊆ qubit_order := by
    intro m hm
    have := hmem m hm
    simpa using this
  have hsp : (List.range n).Subperm qubit_order :=
    List.subperm_of_subset (List.nodup_range n) hsub
  exact (hsp.perm_of_length_le (by simp [hlen])).symm

theorem isPermutationList_nodup {qubit_order : List Nat} {n : Nat}
    (h : isPermutationList qubit_order n = true) : qubit_order.Nodup :=
  (perm_range_of_isPermutationList h).symm.nodup (List.nodup_range n)

theorem isPermutationList_mem {qubit_order : List Nat} {n : Nat}
    (h : isPermutationList qubit_order n = true) :
    ∀ m ∈ qubit_order, m < n := by
  intro m hm
  have := (perm_range_of_isPermutationList h).mem_iff.mp hm
  simpa using this

theorem isPermutationList_length {qubit_order : List Nat} {n : Nat}
    (h : isPermutationList qubit_order n = true) : qubit_order.length = n := by
  rw [isPermutationList, Bool.and_eq_true, beq_iff_eq] at h
  exact h.1

theorem permSource_testBit {qubit_order : List Nat} {n : Nat}
    (h : isPermutationList qubit_order n = true) (j k : Nat) (hk : k < n) :
    Nat.testBit (permSource qubit_order j) (qubit_order.getD k 0) =
      Nat.testBit j k := by
  have := permSourceAux_testBit_getD j qubit_order 0 k (isPermutationList_nodup h)
    (by rw [isPermutationList_length h]; exact hk)
  simpa [permSource] using this

theorem permSource_lt {qubit_order : List Nat} {n : Nat}
    (h : isPermutationList qubit_order n = true) (j : Nat) :
    permSource qubit_order j < 2 ^ n :=
  permSourceAux_lt j qubit_order 0 n (isPermutationList_mem h)

theorem permSource_inj {qubit_order : List Nat} {n : Nat}
    (h : isPermutationList qubit_order n = true) {j1 j2 : Nat}
    (h1 : j1 < 2 ^ n) (h2 : j2 < 2 ^ n)
    (heq : permSource qubit_order j1 = permSource qubit_order j2) : j1 = j2 := by
  apply Nat.eq_of_testBit_eq
  intro k
  by_cases hk : k < n
  · have e1 := permSource_testBit h j1 k hk
    have e2 := permSource_testBit h j2 k hk
    rw [← e1, ← e2, heq]
  · have hk' : 2 ^ n ≤ 2 ^ k := Nat.pow_le_pow_right (by norm_num) (Nat.le_of_not_lt hk)
    rw [Nat.testBit_lt_two_pow (lt_of_lt_of_le h1 hk'),
      Nat.testBit_lt_two_pow (lt_of_lt_of_le h2 hk')]

theorem permSource_surj {qubit_order : List Nat} {n : Nat}
    (h : isPermutationList qubit_order n = true) (i : Nat) (hi : i < 2 ^ n) :
    ∃ j, j < 2 ^ n ∧ permSource qubit_order j = i := by
  have hcard : ((Finset.range (2 ^ n)).image (permSource qubit_order)).card =
      (Finset.range (2 ^ n)).card := by
    apply Finset.card_image_of_injOn
    intro a ha b hb hab
    exact permSource_inj h (Finset.mem_range.mp ha) (Finset.mem_range.mp hb) hab
  have himg : (Finset.range (2 ^ n)).image (permSource qubit_order) =
      Finset.range (2 ^ n) := by
    apply Finset.eq_of_subset_of_card_le
    · intro x hx
      simp only [Finset.mem_image, Finset.mem_range] at hx ⊢
      obtain ⟨j, hj, rfl⟩ := hx
      exact permSource_lt h j
    · rw [hcard, Finset.card_range]
  have hin : i ∈ (Finset.range (2 ^ n)).image (permSource qubit_order) := by
    rw [himg]
    exact Finset.mem_range.mpr hi
  simp only [Finset.mem_image, Finset.mem_range] at hin
  obtain ⟨j, hj, hji⟩ := hin
  exact ⟨j, hj, hji⟩

/-- C4: for a valid permutation `qubit_order` of `0..qubit_count-1`,
`permutate_qubit` returns a state of the same qubit count whose amplitude at
target index `j` is the source amplitude at the bit-permuted index
`permSource qubit_order j`; bit `qubit_order[k]` of the source index equals
bit `k` of `j` (the qubit originally at position `qubit_order[k]` becomes
qubit `k`), and each source index is read by exactly one target index
(nothing combined or lost).  For an invalid order the call fails. -/
theorem claim_C4 (s : QuantumState) (qubit_order : List Nat) :
    (isPermutationList qubit_order s.qubit_count = true →
      ∃ t, state.permutate_qubit s qubit_order = Except.ok t ∧
        t.qubit_count = s.qubit_count ∧
        (∀ j, j < 2 ^ s.qubit_count → amp t j = amp s (permSource qubit_order j)) ∧
        (∀ j k, j < 2 ^ s.qubit_count → k < s.qubit_count →
          Nat.testBit (permSource qubit_order j) (qubit_order.getD k 0) =
            Nat.testBit j k) ∧
        (∀ i, i < 2 ^ s.qubit_count →
          ∃! j, j < 2 ^ s.qubit_count ∧ permSource qubit_order j = i)) ∧
    (isPermutationList qubit_order s.qubit_count = false →
      state.permutate_qubit s qubit_order = Except.error CompError.invalidOrder) := by
  constructor
  · intro h
    simp only [state.permutate_qubit, if_pos h]
    refine ⟨_, rfl, rfl, fun j hj => getD_map_range _ hj,
      fun j k hj hk => permSource_testBit h j k hk, ?_⟩
    intro i hi
    obtain ⟨j, hj, hji⟩ := permSource_surj h i hi
    refine ⟨j, ⟨hj, hji⟩, ?_⟩
    rintro j2 ⟨hj2, hj2i⟩
    exact permSource_inj h hj2 hj (hj2i.trans hji.symm)
  · intro h
    rw [state.permutate_qubit, if_neg (by simp [h])]

/-- Witness for C4: swapping the two qubits of the concrete 2-qubit state
with order [1, 0] is a bijective bit-relabeling. -/
theorem claim_C4_witness :
    ∃ t, state.permutate_qubit sTwo [1, 0] = Except.ok t ∧
      t.qubit_count = sTwo.qubit_count ∧
      (∀ j, j < 2 ^ sTwo.qubit_count → amp t j = amp sTwo (permSource [1, 0] j)) ∧
      (∀ j k, j < 2 ^ sTwo.qubit_count → k < sTwo.qubit_count →
        Nat.testBit (permSource [1, 0] j) ([1, 0].getD k 0) = Nat.testBit j k) ∧
      (∀ i, i < 2 ^ sTwo.qubit_count →
        ∃! j, j < 2 ^ sTwo.qubit_count ∧ permSource [1, 0] j = i) :=
  (claim_C4 sTwo [1, 0]).1 (by decide)

theorem testBit_pow_bit (b : Bool) (p m : Nat) (hne : p ≠ m) :
    Nat.testBit (if b then 2 ^ p else 0) m = false := by
  split
  · exact Nat.testBit_two_pow_of_ne hne
  · exact Nat.zero_testBit m

theorem testBit_pow_bit_self (b : Bool) (p : Nat) :
    Nat.testBit (if b then 2 ^ p else 0) p = b := by
  cases b <;> simp [Nat.testBit_two_pow_self]

theorem pow_bit_lt (b : Bool) (p n : Nat) (hp : p < n) :
    (if b then 2 ^ p else 0) < 2 ^ n := by
  split
  · exact Nat.pow_lt_pow_right (by norm_num) hp
  · exact Nat.two_pow_pos n

theorem embedAux_testBit_notMem (target proj : List Nat) (r : Nat) (ps : List Nat)
    (c m : Nat) (hm : m ∉ ps) :
    Nat.testBit (embedAux target proj r ps c) m = false := by
  induction ps generalizing c with
  | nil => simp [embedAux]
  | cons p rest ih =>
      have hmp : p ≠ m := by
        rintro rfl
        exact hm (List.mem_cons_self _ _)
      have hmrest : m ∉ rest := fun hh => hm (List.mem_cons_of_mem _ hh)
      rw [embedAux]
      split <;>
        rw [Nat.testBit_lor, ih _ hmrest, Bool.or_false, testBit_pow_bit _ _ _ hmp]

theorem embedAux_testBit_target (target proj : List Nat) (r : Nat) (ps : List Nat)
    (c m : Nat) (hnd : ps.Nodup) (hmem : m ∈ ps) (hmt : m ∈ target) :
    Nat.testBit (embedAux target proj r ps c) m =
      (proj.getD (target.indexOf m) 0 == 1) := by
  induction ps generalizing c with
  | nil => simp at hmem
  | cons p rest ih =>
      rcases List.mem_cons.mp hmem with h | hmrest
      · subst h
        rw [embedAux, if_pos hmt, Nat.testBit_lor,
          embedAux_testBit_notMem target proj r rest c m (List.nodup_cons.mp hnd).1,
          Bool.or_false, testBit_pow_bit_self]
      · have hpm : p ≠ m := by
          rintro rfl
          exact (List.nodup_cons.mp hnd).1 hmrest
        rw [embedAux]
        split
        · rw [Nat.testBit_lor, ih c (List.nodup_cons.mp hnd).2 hmrest,
            testBit_pow_bit _ _ _ hpm, Bool.false_or]
        · rw [Nat.testBit_lor, ih (c + 1) (List.nodup_cons.mp hnd).2 hmrest,
            testBit_pow_bit _ _ _ hpm, Bool.false_or]

theorem embedAux_testBit_nonTarget (target proj : List Nat) (r : Nat) (ps : List Nat)
    (c k : Nat) (hnd : ps.Nodup)
    (hk : k < (ps.filter (fun p => decide (p ∉ target))).length) :
    Nat.testBit (embedAux target proj r ps c)
      ((ps.filter (fun p => decide (p ∉ target))).getD k 0) =
      Nat.testBit r (c + k) := by
  induction ps generalizing c k with
  | nil => simp at hk
  | cons p rest ih =>
      by_cases hp : p ∈ target
      · have hfil : (p :: rest).filter (fun x => decide (x ∉ target)) =
            rest.filter (fun x => decide (x ∉ target)) := by
          simp [List.filter_cons, hp]
        rw [hfil] at hk ⊢
        have hmem : (rest.filter (fun x => decide (x ∉ target))).getD k 0 ∈
            rest.filter (fun x => decide (x ∉ target)) := by
          rw [List.getD_eq_getElem _ _ hk]
          exact List.getElem_mem _
        have hmt : (rest.filter (fun x => decide (x ∉ target))).getD k 0 ∉ target := by
          have := (List.mem_filter.mp hmem).2
          simpa using this
        have hpm : p ≠ (rest.filter (fun x => decide (x ∉ target))).getD k 0 :=
          fun h => hmt (h ▸ hp)
        rw [embedAux, if_pos hp, Nat.testBit_lor,
          ih c k (List.nodup_cons.mp hnd).2 hk,
          testBit_pow_bit _ _ _ hpm, Bool.false_or]
      · have hfil : (p :: rest).filter (fun x => decide (x ∉ target)) =
            p :: rest.filter (fun x => decide (x ∉ target)) := by
          simp [List.filter_cons, hp]
        rw [hfil] at hk ⊢
        cases k with
        | zero =>
            rw [show (p :: rest.filter (fun x => decide (x ∉ target))).getD 0 0 = p
                from rfl]
            rw [embedAux, if_neg hp, Nat.testBit_lor,
              embedAux_testBit_notMem target proj r rest (c + 1) p
                (List.nodup_cons.mp hnd).1,
              Bool.or_false, testBit_pow_bit_self, Nat.add_zero]
        | succ k2 =>
            have hk2 : k2 < (rest.filter (fun x => decide (x ∉ target))).length := by
              simpa using hk
            have hmem : (rest.filter (fun x => decide (x ∉ target))).getD k2 0 ∈
                rest.filter (fun x => decide (x ∉ target)) := by
              rw [List.getD_eq_getElem _ _ hk2]
              exact List.getElem_mem _
            have hmemr := List.mem_of_mem_filter hmem
            have hpm : p ≠ (rest.filter (fun x => decide (x ∉ target))).getD k2 0 :=
              fun h => (List.nodup_cons.mp hnd).1 (h.symm ▸ hmemr)
            rw [show (p :: rest.filter (fun x => decide (x ∉ target))).getD (k2 + 1) 0 =
                (rest.filter (fun x => decide (x ∉ target))).getD k2 0 from rfl]
            rw [embedAux, if_neg hp, Nat.testBit_lor,
              ih (c + 1) k2 (List.nodup_cons.mp hnd).2 hk2,
              testBit_pow_bit _ _ _ hpm, Bool.false_or]
            congr 1
            omega

theorem embedAux_lt (target proj : List Nat) (r : Nat) (ps : List Nat) (c n : Nat)
    (h : ∀ p ∈ ps, p < n) : embedAux target proj r ps c < 2 ^ n := by
  induction ps generalizing c with
  | nil => simp [embedAux, Nat.two_pow_pos n]
  | cons p rest ih =>
      have hp : p < n := h p (List.mem_cons_self p rest)
      have hrest : ∀ x ∈ rest, x < n := fun x hx => h x (List.mem_cons_of_mem _ hx)
      rw [embedAux]
      split <;> exact Nat.or_lt_two_pow (pow_bit_lt _ _ _ hp) (ih _ hrest)

theorem nodup_indexOf_getD {l : List Nat} (hl : l.Nodup) {q : Nat} (hq : q < l.length) :
    l.indexOf (l.getD q 0) = q := by
  have hmem : l.getD q 0 ∈ l := by
    rw [List.getD_eq_getElem _ _ hq]
    exact List.getElem_mem _
  have hlt : l.indexOf (l.getD q 0) < l.length := List.indexOf_lt_length.mpr hmem
  have heq : l[l.indexOf (l.getD q 0)] = l[q] := by
    rw [List.getElem_indexOf hlt, List.getD_eq_getElem _ _ hq]
  exact (List.Nodup.getElem_inj_iff hl).mp heq

theorem length_filter_add_length_filter_not (l : List Nat) (p : Nat → Bool) :
    (l.filter p).length + (l.filter (fun x => !p x)).length = l.length := by
  induction l with
  | nil => rfl
  | cons a t ih => cases hp : p a <;> simp [List.filter_cons, hp] <;> omega

theorem nonTargets_length {target : List Nat} {n : Nat} (hnd : target.Nodup)
    (hlt : ∀ t ∈ target, t < n) :
    (nonTargets target n).length = n - target.length := by
  have hin : ((List.range n).filter (fun p => decide (p ∈ target))).length =
      target.length := by
    have h1 : ((List.range n).filter (fun p => decide (p ∈ target))).Subperm target := by
      apply List.subperm_of_subset ((List.nodup_range n).filter _)
      intro x hx
      have := (List.mem_filter.mp hx).2
      simpa using this
    have h2 : target.Subperm ((List.range n).filter (fun p => decide (p ∈ target))) := by
      apply List.subperm_of_subset hnd
      intro x hx
      rw [List.mem_filter]
      exact ⟨List.mem_range.mpr (hlt x hx), by simpa using hx⟩
    exact ((h2.antisymm h1).symm).length_eq
  have hcast : (List.range n).filter (fun x => !decide (x ∈ target)) =
      nonTargets target n := by
    rw [nonTargets]
    congr 1
    funext x
    simp [decide_not]
  have htot := length_filter_add_length_filter_not (List.range n)
    (fun p => decide (p ∈ target))
  rw [hcast, hin, List.length_range] at htot
  omega

theorem embedIndex_testBit_target (target proj : List Nat) (n : Nat)
    (hnd : target.Nodup) (hlt : ∀ t ∈ target, t < n) (r q : Nat)
    (hq : q < target.length) :
    Nat.testBit (embedIndex target proj n r) (target.getD q 0) =
      (proj.getD q 0 == 1) := by
  have hmem : target.getD q 0 ∈ target := by
    rw [List.getD_eq_getElem _ _ hq]
    exact List.getElem_mem _
  have hr : target.getD q 0 ∈ List.range n := List.mem_range.mpr (hlt _ hmem)
  rw [embedIndex, embedAux_testBit_target target proj r (List.range n) 0 _
      (List.nodup_range n) hr hmem, nodup_indexOf_getD hnd hq]

theorem embedIndex_testBit_nonTarget (target proj : List Nat) (n r k : Nat)
    (hk : k < (nonTargets target n).length) :
    Nat.testBit (embedIndex target proj n r) ((nonTargets target n).getD k 0) =
      Nat.testBit r k := by
  have hk2 : k < ((List.range n).filter (fun p => decide (p ∉ target))).length := hk
  have := embedAux_testBit_nonTarget target proj r (List.range n) 0 k
    (List.nodup_range n) hk2
  simpa [nonTargets, embedIndex] using this

theorem embedIndex_lt (target proj : List Nat) (n r : Nat) :
    embedIndex target proj n r < 2 ^ n :=
  embedAux_lt target proj r (List.range n) 0 n (fun p hp => List.mem_range.mp hp)

theorem embedIndex_unique (target proj : List Nat) (n : Nat)
    (hnd : target.Nodup) (hlt : ∀ t ∈ target, t < n) (r i : Nat)
    (hi : i < 2 ^ n)
    (htb : ∀ q, q < target.length →
      Nat.testBit i (target.getD q 0) = (proj.getD q 0 == 1))
    (hnb : ∀ k, k < (nonTargets target n).length →
      Nat.testBit i ((nonTargets target n).getD k 0) = Nat.testBit r k) :
    i = embedIndex target proj n r := by
  apply Nat.eq_of_testBit_eq
  intro x
  by_cases hx : x < n
  · by_cases hxt : x ∈ target
    · have hq : target.indexOf x < target.length := List.indexOf_lt_length.mpr hxt
      have hgd : target.getD (target.indexOf x) 0 = x := by
        rw [List.getD_eq_getElem _ _ hq]
        exact List.getElem_indexOf hq
      have h1 := htb (target.indexOf x) hq
      rw [hgd] at h1
      rw [h1, embedIndex, embedAux_testBit_target target proj r (List.range n) 0 x
        (List.nodup_range n) (List.mem_range.mpr hx) hxt]
    · have hxnt : x ∈ nonTargets target n := by
        rw [nonTargets, List.mem_filter]
        exact ⟨List.mem_range.mpr hx, by simpa using hxt⟩
      obtain ⟨k, hkl, hkx⟩ := List.getElem_of_mem hxnt
      have hgd : (nonTargets target n).getD k 0 = x := by
        rw [List.getD_eq_getElem _ _ hkl]
        exact hkx
      have h1 := hnb k hkl
      have h2 := embedIndex_testBit_nonTarget target proj n r k hkl
      rw [hgd] at h1 h2
      rw [h1, h2]
  · have hge : 2 ^ n ≤ 2 ^ x := Nat.pow_le_pow_right (by norm_num) (Nat.le_of_not_lt hx)
    rw [Nat.testBit_lt_two_pow (lt_of_lt_of_le hi hge),
      Nat.testBit_lt_two_pow (lt_of_lt_of_le (embedIndex_lt target proj n r) hge)]

/-- C3: for target/projection lists of equal length whose entries are
distinct in-range qubit indices, `drop_qubit` returns a state over
`qubit_count - |target|` qubits whose amplitude at each surviving index `r`
is the source amplitude (copied verbatim, no renormalization) at
`embedIndex target projection qubit_count r` — the unique index below
`2^qubit_count` whose target bits equal the projection values and whose
remaining bits, in increasing position order, are the bits of `r`.  If the
lists differ in length the call fails with a shape mismatch; if a target is
out of range (and the lengths match) it fails with a range error. -/
theorem claim_C3 (s : QuantumState) (target projection : List Nat) :
    (target.length = projection.length → target.Nodup →
     (∀ t ∈ target, t < s.qubit_count) →
      ∃ u, state.drop_qubit s target projection = Except.ok u ∧
        u.qubit_count = s.qubit_count - target.length ∧
        (nonTargets target s.qubit_count).length = s.qubit_count - target.length ∧
        (∀ r, r < 2 ^ (s.qubit_count - target.length) →
          amp u r = amp s (embedIndex target projection s.qubit_count r)) ∧
        (∀ r q, q < target.length →
          Nat.testBit (embedIndex target projection s.qubit_count r)
            (target.getD q 0) = (projection.getD q 0 == 1)) ∧
        (∀ r k, k < s.qubit_count - target.length →
          Nat.testBit (embedIndex target projection s.qubit_count r)
            ((nonTargets target s.qubit_count).getD k 0) = Nat.testBit r k) ∧
        (∀ r i, i < 2 ^ s.qubit_count →
          (∀ q, q < target.length →
            Nat.testBit i (target.getD q 0) = (projection.getD q 0 == 1)) →
          (∀ k, k < s.qubit_count - target.length →
            Nat.testBit i ((nonTargets target s.qubit_count).getD k 0) =
              Nat.testBit r k) →
          i = embedIndex target projection s.qubit_count r)) ∧
    (target.length ≠ projection.length →
      state.drop_qubit s target projection = Except.error CompError.shapeMismatch) ∧
    ((∃ t ∈ target, s.qubit_count ≤ t) → target.length = projection.length →
      state.drop_qubit s target projection = Except.error CompError.rangeError) := by
  refine ⟨?_, ?_, ?_⟩
  · intro hlen hnd hlt
    have hnt := nonTargets_length hnd hlt
    have hrange : target.any (fun t => s.qubit_count ≤ t) = false := by
      simp only [List.any_eq_false, decide_eq_true_eq]
      intro x hx
      exact Nat.not_le.mpr (hlt x hx)
    rw [state.drop_qubit, if_neg (by simp [hlen]), if_neg (by simp [hrange])]
    refine ⟨_, rfl, rfl, hnt, fun r hr => getD_map_range _ hr, ?_, ?_, ?_⟩
    · intro r q hq
      exact embedIndex_testBit_target target projection s.qubit_count hnd hlt r q hq
    · intro r k hk
      exact embedIndex_testBit_nonTarget target projection s.qubit_count r k
        (by rw [hnt]; exact hk)
    · intro r i hi htb hnb
      exact embedIndex_unique target projection s.qubit_count hnd hlt r i hi htb
        (fun k hk => hnb k (hnt ▸ hk))
  · intro h
    rw [state.drop_qubit, if_pos h]
  · intro h hlen
    obtain ⟨t, ht, htn⟩ := h
    rw [state.drop_qubit, if_neg (by simp [hlen]),
      if_pos (by simp only [List.any_eq_true, decide_eq_true_eq]; exact ⟨t, ht, htn⟩)]

/-- Witness for C3: dropping qubit 0 of the concrete 2-qubit state projected
onto value 1 keeps the odd-index amplitudes unrenormalized. -/
theorem claim_C3_witness :
    ∃ u, state.drop_qubit sTwo [0] [1] = Except.ok u ∧
      u.qubit_count = sTwo.qubit_count - [0].length ∧
      (nonTargets [0] sTwo.qubit_count).length = sTwo.qubit_count - [0].length ∧
      (∀ r, r < 2 ^ (sTwo.qubit_count - [0].length) →
        amp u r = amp sTwo (embedIndex [0] [1] sTwo.qubit_count r)) ∧
      (∀ r q, q < [0].length →
        Nat.testBit (embedIndex [0] [1] sTwo.qubit_count r) ([0].getD q 0) =
          ([1].getD q 0 == 1)) ∧
      (∀ r k, k < sTwo.qubit_count - [0].length →
        Nat.testBit (embedIndex [0] [1] sTwo.qubit_count r)
          ((nonTargets [0] sTwo.qubit_count).getD k 0) = Nat.testBit r k) ∧
      (∀ r i, i < 2 ^ sTwo.qubit_count →
        (∀ q, q < [0].length →
          Nat.testBit i ([0].getD q 0) = ([1].getD q 0 == 1)) →
        (∀ k, k < sTwo.qubit_count - [0].length →
          Nat.testBit i ((nonTargets [0] sTwo.qubit_count).getD k 0) =
            Nat.testBit r k) →
        i = embedIndex [0] [1] sTwo.qubit_count r) :=
  (claim_C3 sTwo [0] [1]).1 (by decide) (by decide) (by decide)
